import Mathlib

/-!
Verification development for the planning-poker shared room store
(roomStore module) and the custom-deck parsing in App.tsx.

JavaScript plain objects used as string-keyed maps are embedded as
association lists that keep insertion order: assignment to an existing
key updates it in place, assignment to a fresh key appends at the end,
and deletion removes the key.  This mirrors the enumeration-order
semantics of JS objects with non-index string keys, on which the
host-reassignment logic (`Object.keys(...)[0]`) depends.
-/

namespace PlanningPoker

/-- A JS object used as a map from string keys to values. -/
abbrev AList (α : Type) := List (String × α)

/-- Key lookup, `obj[k]` (first matching key). -/
def getKey {α : Type} : AList α → String → Option α
  | [], _ => none
  | (k', v) :: rest, k => if k' == k then some v else getKey rest k

/-- Key assignment, `obj[k] = v`: update in place if present, append otherwise. -/
def setKey {α : Type} : AList α → String → α → AList α
  | [], k, v => [(k, v)]
  | (k', v') :: rest, k, v =>
    if k' == k then (k, v) :: rest else (k', v') :: setKey rest k v

/-- Key deletion, `delete obj[k]`. -/
def delKey {α : Type} (m : AList α) (k : String) : AList α :=
  m.filter (fun p => !(p.1 == k))

/-- Key membership, `k in obj`. -/
def hasKey {α : Type} (m : AList α) (k : String) : Bool :=
  m.any (fun p => p.1 == k)

/-- `Object.keys(obj)`, in insertion order. -/
def keys {α : Type} (m : AList α) : List String :=
  m.map (fun p => p.1)

/-- The whitespace characters matched by the ASCII part of JS `\s`
(and trimmed by `String.prototype.trim`): space, tab, newline, carriage
return, vertical tab, form feed.  JS additionally treats some Unicode
spaces as whitespace; the inputs considered here are ASCII. -/
def jsWsChars : List Char := [' ', '\t', '\n', '\r', '\x0b', '\x0c']

def isJsWs (c : Char) : Bool := jsWsChars.contains c

/-- JS `String.prototype.trim`: strip leading and trailing whitespace. -/
def trimStr (s : String) : String :=
  String.mk (((s.toList.dropWhile isJsWs).reverse.dropWhile isJsWs).reverse)

/-! ## Data model (roomStore) -/

inductive DeckType
  | fibonacci
  | numeric
  | custom
deriving DecidableEq

structure ParticipantProfile where
  id : String
  name : String
  avatarColor : String
  joinedAt : Nat
deriving DecidableEq

structure RoomState where
  id : String
  name : String
  deckType : DeckType
  deckValues : List String
  hostId : String
  participants : AList ParticipantProfile
  votes : AList (Option String)
  revealed : Bool
  createdAt : Nat
deriving DecidableEq

/-- The room table (`RoomsMap`): room id to room state. -/
abbrev Table := AList RoomState

def PRESET_FIBONACCI : List String :=
  ["0", "1", "2", "3", "5", "8", "13", "21", "34", "55", "89", "?", "☕"]

def PRESET_NUMERIC : List String :=
  ["0", "1", "2", "3", "4", "5", "6", "7", "8", "9", "10", "?", "☕"]

/-- `resolveDeck` from roomStore: presets for the two fixed deck types;
a custom deck is trimmed and emptied entries dropped, falling back to
the single-card deck when nothing usable is left. -/
def resolveDeck (deckType : DeckType) (customDeck : Option (List String)) : List String :=
  match deckType with
  | .custom =>
    let deck := ((customDeck.getD []).map trimStr).filter (fun v => v.length != 0)
    if deck.length > 0 then deck else ["?"]
  | .fibonacci => PRESET_FIBONACCI
  | .numeric => PRESET_NUMERIC

structure CreateRoomOptions where
  name : String
  deckType : DeckType
  customDeck : Option (List String)
  host : ParticipantProfile
deriving DecidableEq

/-- The room built by `createRoom`.  The impure id generation and
`Date.now()` clock are passed in as the `id` and `now` arguments. -/
def buildRoom (id : String) (now : Nat) (options : CreateRoomOptions) : RoomState :=
  let participant : ParticipantProfile :=
    { id := options.host.id
      name := options.host.name
      avatarColor := options.host.avatarColor
      joinedAt := options.host.joinedAt }
  { id := id
    name := if trimStr options.name == "" then "Sala sem nome" else trimStr options.name
    deckType := options.deckType
    deckValues := resolveDeck options.deckType options.customDeck
    hostId := participant.id
    participants := [(participant.id, participant)]
    votes := [(participant.id, none)]
    revealed := false
    createdAt := now }

/-- `createRoom`: insert the freshly built room into the table. -/
def createRoom (id : String) (now : Nat) (options : CreateRoomOptions) (t : Table) : Table :=
  setKey t id (buildRoom id now options)

structure JoinRoomResult where
  success : Bool
  reason : Option String
  room : Option RoomState
deriving DecidableEq

/-- `joinRoom`: structured failure when the room is missing; otherwise
upsert the participant (keeping a pre-existing `joinedAt`) and create a
null vote slot only when none exists. -/
def joinRoom (t : Table) (roomId : String) (profile : ParticipantProfile) :
    JoinRoomResult × Table :=
  match getKey t roomId with
  | none => ({ success := false, reason := some "Sala não encontrada.", room := none }, t)
  | some room =>
    let joinedAt :=
      match getKey room.participants profile.id with
      | some existing => existing.joinedAt
      | none => profile.joinedAt
    let participants' := setKey room.participants profile.id
      { id := profile.id
        name := profile.name
        avatarColor := profile.avatarColor
        joinedAt := joinedAt }
    let votes' :=
      if hasKey room.votes profile.id then room.votes
      else setKey room.votes profile.id none
    let t' := setKey t roomId { room with participants := participants', votes := votes' }
    ({ success := true, reason := none, room := getKey t' roomId }, t')

/-- `leaveRoom`: remove the participant and vote slot; delete the room
when nobody remains; hand the host role to the first remaining key when
the host left. -/
def leaveRoom (t : Table) (roomId participantId : String) : Table :=
  match getKey t roomId with
  | none => t
  | some room =>
    let participants' := delKey room.participants participantId
    let votes' := delKey room.votes participantId
    match keys participants' with
    | [] => delKey t roomId
    | first :: rest =>
      let hostId' := if room.hostId == participantId then first else room.hostId
      let revealed' :=
        if room.revealed && (first :: rest).isEmpty then false else room.revealed
      setKey t roomId
        { room with
          participants := participants'
          votes := votes'
          hostId := hostId'
          revealed := revealed' }

/-- The `Partial` update accepted by `updateParticipantProfile`
(only the display fields; id and join time are not updatable). -/
structure ProfileUpdates where
  name : Option String
  avatarColor : Option String
deriving DecidableEq

def updateParticipantProfile (t : Table) (roomId participantId : String)
    (updates : ProfileUpdates) : Table :=
  match getKey t roomId with
  | none => t
  | some room =>
    match getKey room.participants participantId with
    | none => t
    | some participant =>
      let merged : ParticipantProfile :=
        { participant with
          name := updates.name.getD participant.name
          avatarColor := updates.avatarColor.getD participant.avatarColor }
      setKey t roomId
        { room with participants := setKey room.participants participantId merged }

def submitVote (t : Table) (roomId participantId : String) (value : Option String) : Table :=
  match getKey t roomId with
  | none => t
  | some room =>
    if hasKey room.participants participantId then
      let votes' := setKey room.votes participantId value
      let revealed' := if value = none then false else room.revealed
      setKey t roomId { room with votes := votes', revealed := revealed' }
    else t

def revealVotes (t : Table) (roomId : String) : Table :=
  match getKey t roomId with
  | none => t
  | some room => setKey t roomId { room with revealed := true }

def resetVotes (t : Table) (roomId : String) : Table :=
  match getKey t roomId with
  | none => t
  | some room =>
    setKey t roomId
      { room with
        votes := room.votes.map (fun p => (p.1, (none : Option String)))
        revealed := false }

def removeParticipant (t : Table) (roomId participantId : String) : Table :=
  leaveRoom t roomId participantId

def transferHost (t : Table) (roomId newHostId : String) : Table :=
  match getKey t roomId with
  | none => t
  | some room =>
    if hasKey room.participants newHostId then
      setKey t roomId { room with hostId := newHostId }
    else t

/-- Tables reachable from the empty table by the Mutation API.  The
impure inputs of `createRoom` (fresh id, clock) are universally
quantified, so every possible run is covered. -/
inductive Reachable : Table → Prop
  | empty : Reachable []
  | create (id : String) (now : Nat) (options : CreateRoomOptions) {t : Table} :
      Reachable t → Reachable (createRoom id now options t)
  | join (roomId : String) (profile : ParticipantProfile) {t : Table} :
      Reachable t → Reachable (joinRoom t roomId profile).2
  | leave (roomId participantId : String) {t : Table} :
      Reachable t → Reachable (leaveRoom t roomId participantId)
  | update (roomId participantId : String) (updates : ProfileUpdates) {t : Table} :
      Reachable t → Reachable (updateParticipantProfile t roomId participantId updates)
  | vote (roomId participantId : String) (value : Option String) {t : Table} :
      Reachable t → Reachable (submitVote t roomId participantId value)
  | reveal (roomId : String) {t : Table} :
      Reachable t → Reachable (revealVotes t roomId)
  | reset (roomId : String) {t : Table} :
      Reachable t → Reachable (resetVotes t roomId)
  | remove (roomId participantId : String) {t : Table} :
      Reachable t → Reachable (removeParticipant t roomId participantId)
  | transfer (roomId newHostId : String) {t : Table} :
      Reachable t → Reachable (transferHost t roomId newHostId)

/-! ## Association-list lemmas -/

theorem getKey_setKey_self {α : Type} (m : AList α) (k : String) (v : α) :
    getKey (setKey m k v) k = some v := by
  induction m with
  | nil => simp [setKey, getKey]
  | cons p rest ih =>
    obtain ⟨k', v'⟩ := p
    by_cases h : k' = k
    · subst h; simp [setKey, getKey]
    · simp [setKey, getKey, h, ih]

theorem getKey_setKey_ne {α : Type} (m : AList α) (k k' : String) (v : α)
    (h : k' ≠ k) : getKey (setKey m k v) k' = getKey m k' := by
  induction m with
  | nil => simp [setKey, getKey, Ne.symm h]
  | cons p rest ih =>
    obtain ⟨k₀, v₀⟩ := p
    by_cases h₀ : k₀ = k
    · subst h₀
      simp [setKey, getKey, Ne.symm h]
    · simp only [setKey, beq_iff_eq, h₀, if_false, getKey]
      by_cases h₁ : k₀ = k'
      · simp [h₁]
      · simp [h₁, ih]

theorem hasKey_eq_isSome_getKey {α : Type} (m : AList α) (k : String) :
    hasKey m k = (getKey m k).isSome := by
  induction m with
  | nil => rfl
  | cons p rest ih =>
    obtain ⟨k', v'⟩ := p
    by_cases h : k' = k
    · simp [hasKey, getKey, h]
    · simp [hasKey, getKey, h, ← ih]

theorem getKey_eq_some_of_hasKey {α : Type} {m : AList α} {k : String}
    (h : hasKey m k = true) : ∃ v, getKey m k = some v := by
  rw [hasKey_eq_isSome_getKey] at h
  exact Option.isSome_iff_exists.mp h

theorem getKey_eq_none_of_not_hasKey {α : Type} {m : AList α} {k : String}
    (h : hasKey m k = false) : getKey m k = none := by
  rw [hasKey_eq_isSome_getKey] at h
  exact Option.not_isSome_iff_eq_none.mp (by simp [h])

theorem mem_setKey {α : Type} {m : AList α} {k : String} {v : α} {e : String × α}
    (h : e ∈ setKey m k v) : e = (k, v) ∨ e ∈ m := by
  induction m with
  | nil => simpa [setKey] using h
  | cons p rest ih =>
    obtain ⟨k', v'⟩ := p
    by_cases h₀ : k' = k
    · subst h₀
      simp only [setKey, beq_self_eq_true, if_true, List.mem_cons] at h
      rcases h with h | h
      · exact Or.inl h
      · exact Or.inr (List.mem_cons_of_mem _ h)
    · simp only [setKey, beq_iff_eq, h₀, if_false, List.mem_cons] at h
      rcases h with h | h
      · exact Or.inr (List.mem_cons.mpr (Or.inl h))
      · rcases ih h with h' | h'
        · exact Or.inl h'
        · exact Or.inr (List.mem_cons_of_mem _ h')

theorem setKey_ne_nil {α : Type} (m : AList α) (k : String) (v : α) :
    setKey m k v ≠ [] := by
  cases m with
  | nil => simp [setKey]
  | cons p rest =>
    obtain ⟨k', v'⟩ := p
    by_cases h : k' = k <;> simp [setKey, h]

theorem hasKey_setKey {α : Type} (m : AList α) (k k' : String) (v : α) :
    hasKey (setKey m k v) k' = true ↔ (k' = k ∨ hasKey m k' = true) := by
  by_cases h : k' = k
  · subst h
    simp [hasKey_eq_isSome_getKey, getKey_setKey_self]
  · simp [hasKey_eq_isSome_getKey, getKey_setKey_ne m k k' v h, h]

theorem mem_delKey {α : Type} {m : AList α} {k : String} {e : String × α}
    (h : e ∈ delKey m k) : e ∈ m :=
  List.mem_of_mem_filter h

theorem hasKey_delKey {α : Type} (m : AList α) (k k' : String) :
    hasKey (delKey m k) k' = true ↔ (k' ≠ k ∧ hasKey m k' = true) := by
  simp only [hasKey, delKey, List.any_eq_true, List.mem_filter]
  constructor
  · rintro ⟨p, ⟨hp, hkeep⟩, hk⟩
    rw [beq_iff_eq] at hk
    subst hk
    simp only [Bool.not_eq_true', beq_eq_false_iff_ne, ne_eq] at hkeep
    exact ⟨hkeep, p, hp, by simp⟩
  · rintro ⟨hne, p, hp, hk⟩
    rw [beq_iff_eq] at hk
    subst hk
    exact ⟨p, ⟨hp, by simpa using hne⟩, by simp⟩

theorem delKey_eq_self_of_not_hasKey {α : Type} {m : AList α} {k : String}
    (h : hasKey m k = false) : delKey m k = m := by
  unfold hasKey at h
  apply List.filter_eq_self.mpr
  intro p hp
  have hne := List.any_eq_false.mp h p hp
  simp only [Bool.not_eq_true] at hne
  simp [hne]

theorem setKey_eq_self_of_getKey {α : Type} {m : AList α} {k : String} {v : α}
    (h : getKey m k = some v) : setKey m k v = m := by
  induction m with
  | nil => simp [getKey] at h
  | cons p rest ih =>
    obtain ⟨k', v'⟩ := p
    by_cases h₀ : k' = k
    · subst h₀
      simp only [getKey, beq_self_eq_true, if_true, Option.some.injEq] at h
      subst h
      simp [setKey]
    · simp only [getKey, beq_iff_eq, h₀, if_false] at h
      simp [setKey, h₀, ih h]

theorem mem_keys_iff_hasKey {α : Type} (m : AList α) (k : String) :
    k ∈ keys m ↔ hasKey m k = true := by
  simp only [keys, hasKey, List.mem_map, List.any_eq_true, beq_iff_eq]

theorem keys_eq_nil_iff {α : Type} (m : AList α) : keys m = [] ↔ m = [] := by
  cases m <;> simp [keys]

theorem hasKey_mapVals {α β : Type} (m : AList α) (f : String × α → β) (k : String) :
    hasKey (m.map (fun p => (p.1, f p))) k = hasKey m k := by
  induction m with
  | nil => rfl
  | cons p rest ih =>
    simp only [hasKey] at ih ⊢
    simp only [List.map_cons, List.any_cons, ih]

/-! ## The reachable-state invariant -/

/-- The strong per-room invariant maintained by every mutation:
non-empty participants, the host is a participant, and the participant
and vote maps have the same key sets. -/
def GoodRoom (room : RoomState) : Prop :=
  room.participants ≠ [] ∧
  hasKey room.participants room.hostId = true ∧
  (∀ k, hasKey room.participants k = true → hasKey room.votes k = true) ∧
  (∀ k, hasKey room.votes k = true → hasKey room.participants k = true)

def GoodTable (t : Table) : Prop :=
  ∀ e ∈ t, GoodRoom e.2

theorem goodRoom_of_getKey {t : Table} {rid : String} {room : RoomState}
    (ht : GoodTable t) (h : getKey t rid = some room) : GoodRoom room := by
  induction t with
  | nil => simp [getKey] at h
  | cons p rest ih =>
    obtain ⟨k', r'⟩ := p
    by_cases h₀ : k' = rid
    · subst h₀
      simp only [getKey, beq_self_eq_true, if_true, Option.some.injEq] at h
      subst h
      exact ht _ (List.mem_cons_self _ _)
    · simp only [getKey, beq_iff_eq, h₀, if_false] at h
      exact ih (fun e he => ht e (List.mem_cons_of_mem _ he)) h

theorem goodTable_setKey {t : Table} {rid : String} {room : RoomState}
    (ht : GoodTable t) (hroom : GoodRoom room) : GoodTable (setKey t rid room) := by
  intro e he
  rcases mem_setKey he with rfl | he'
  · exact hroom
  · exact ht e he'

theorem goodTable_delKey {t : Table} {rid : String} (ht : GoodTable t) :
    GoodTable (delKey t rid) :=
  fun e he => ht e (mem_delKey he)

theorem goodTable_createRoom (t : Table) (id : String) (now : Nat)
    (options : CreateRoomOptions) (ht : GoodTable t) :
    GoodTable (createRoom id now options t) := by
  apply goodTable_setKey ht
  refine ⟨by simp [buildRoom], ?_, ?_, ?_⟩
  · simp [buildRoom, hasKey]
  · intro k hk
    simp only [buildRoom, hasKey, List.any_cons, List.any_nil, Bool.or_false] at hk ⊢
    exact hk
  · intro k hk
    simp only [buildRoom, hasKey, List.any_cons, List.any_nil, Bool.or_false] at hk ⊢
    exact hk

theorem goodTable_joinRoom (t : Table) (roomId : String) (profile : ParticipantProfile)
    (ht : GoodTable t) : GoodTable (joinRoom t roomId profile).2 := by
  unfold joinRoom
  cases hroom : getKey t roomId with
  | none => exact ht
  | some room =>
    have hg := goodRoom_of_getKey ht hroom
    obtain ⟨hne, hhost, hfwd, hbwd⟩ := hg
    apply goodTable_setKey ht
    refine ⟨setKey_ne_nil _ _ _, ?_, ?_, ?_⟩
    · exact (hasKey_setKey _ _ _ _).mpr (Or.inr hhost)
    · intro k hk
      rcases (hasKey_setKey _ _ _ _).mp hk with rfl | hk'
      · by_cases hv : hasKey room.votes profile.id = true
        · simp only [hv, if_true]
        · simp only [Bool.not_eq_true] at hv
          simp only [hv, Bool.false_eq_true, if_false]
          exact (hasKey_setKey _ _ _ _).mpr (Or.inl rfl)
      · have hv := hfwd k hk'
        by_cases hvp : hasKey room.votes profile.id = true
        · simpa [hvp] using hv
        · simp only [Bool.not_eq_true] at hvp
          simp only [hvp, Bool.false_eq_true, if_false]
          exact (hasKey_setKey _ _ _ _).mpr (Or.inr hv)
    · intro k hk
      by_cases hvp : hasKey room.votes profile.id = true
      · simp only [hvp, if_true] at hk
        exact (hasKey_setKey _ _ _ _).mpr (Or.inr (hbwd k hk))
      · simp only [Bool.not_eq_true] at hvp
        simp only [hvp, Bool.false_eq_true, if_false] at hk
        rcases (hasKey_setKey _ _ _ _).mp hk with rfl | hk'
        · exact (hasKey_setKey _ _ _ _).mpr (Or.inl rfl)
        · exact (hasKey_setKey _ _ _ _).mpr (Or.inr (hbwd k hk'))

theorem goodTable_leaveRoom (t : Table) (roomId participantId : String)
    (ht : GoodTable t) : GoodTable (leaveRoom t roomId participantId) := by
  cases hroom : getKey t roomId with
  | none =>
    unfold leaveRoom
    rw [hroom]
    exact ht
  | some room =>
    have hg := goodRoom_of_getKey ht hroom
    obtain ⟨hne, hhost, hfwd, hbwd⟩ := hg
    cases hk : keys (delKey room.participants participantId) with
    | nil =>
      unfold leaveRoom
      rw [hroom]
      simp only [hk]
      exact goodTable_delKey ht
    | cons first rest =>
      unfold leaveRoom
      rw [hroom]
      simp only [hk]
      apply goodTable_setKey ht
      have hfirst : hasKey (delKey room.participants participantId) first = true := by
        rw [← mem_keys_iff_hasKey, hk]
        exact List.mem_cons_self _ _
      refine ⟨?_, ?_, ?_, ?_⟩
      · show delKey room.participants participantId ≠ []
        intro hnil
        rw [hnil] at hk
        simp [keys] at hk
      · show hasKey (delKey room.participants participantId)
          (if room.hostId == participantId then first else room.hostId) = true
        by_cases hh : room.hostId = participantId
        · simp only [hh, beq_self_eq_true, if_true]
          exact hfirst
        · simp only [beq_iff_eq, hh, if_false]
          exact (hasKey_delKey _ _ _).mpr ⟨hh, hhost⟩
      · show ∀ k, hasKey (delKey room.participants participantId) k = true →
          hasKey (delKey room.votes participantId) k = true
        intro k hkk
        obtain ⟨hkne, hkp⟩ := (hasKey_delKey _ _ _).mp hkk
        exact (hasKey_delKey _ _ _).mpr ⟨hkne, hfwd k hkp⟩
      · show ∀ k, hasKey (delKey room.votes participantId) k = true →
          hasKey (delKey room.participants participantId) k = true
        intro k hkk
        obtain ⟨hkne, hkv⟩ := (hasKey_delKey _ _ _).mp hkk
        exact (hasKey_delKey _ _ _).mpr ⟨hkne, hbwd k hkv⟩

theorem goodTable_updateParticipantProfile (t : Table) (roomId participantId : String)
    (updates : ProfileUpdates) (ht : GoodTable t) :
    GoodTable (updateParticipantProfile t roomId participantId updates) := by
  cases hroom : getKey t roomId with
  | none =>
    unfold updateParticipantProfile
    rw [hroom]
    exact ht
  | some room =>
    cases hp : getKey room.participants participantId with
    | none =>
      unfold updateParticipantProfile
      rw [hroom]
      simp only [hp]
      exact ht
    | some participant =>
      have hg := goodRoom_of_getKey ht hroom
      obtain ⟨hne, hhost, hfwd, hbwd⟩ := hg
      have hpk : hasKey room.participants participantId = true := by
        rw [hasKey_eq_isSome_getKey, hp]
        rfl
      unfold updateParticipantProfile
      rw [hroom]
      simp only [hp]
      apply goodTable_setKey ht
      refine ⟨setKey_ne_nil _ _ _, ?_, ?_, ?_⟩
      · exact (hasKey_setKey _ _ _ _).mpr (Or.inr hhost)
      · intro k hk
        rcases (hasKey_setKey _ _ _ _).mp hk with rfl | hk'
        · exact hfwd k hpk
        · exact hfwd k hk'
      · intro k hk
        exact (hasKey_setKey _ _ _ _).mpr (Or.inr (hbwd k hk))

theorem goodTable_submitVote (t : Table) (roomId participantId : String)
    (value : Option String) (ht : GoodTable t) :
    GoodTable (submitVote t roomId participantId value) := by
  unfold submitVote
  cases hroom : getKey t roomId with
  | none => exact ht
  | some room =>
    by_cases hp : hasKey room.participants participantId = true
    · simp only [hp, if_true]
      have hg := goodRoom_of_getKey ht hroom
      obtain ⟨hne, hhost, hfwd, hbwd⟩ := hg
      apply goodTable_setKey ht
      refine ⟨hne, hhost, ?_, ?_⟩
      · intro k hk
        exact (hasKey_setKey _ _ _ _).mpr (Or.inr (hfwd k hk))
      · intro k hk
        rcases (hasKey_setKey _ _ _ _).mp hk with rfl | hk'
        · exact hp
        · exact hbwd k hk'
    · simp only [Bool.not_eq_true] at hp
      simp only [hp, Bool.false_eq_true, if_false]
      exact ht

theorem goodTable_revealVotes (t : Table) (roomId : String) (ht : GoodTable t) :
    GoodTable (revealVotes t roomId) := by
  unfold revealVotes
  cases hroom : getKey t roomId with
  | none => exact ht
  | some room =>
    have hg := goodRoom_of_getKey ht hroom
    exact goodTable_setKey ht hg

theorem goodTable_resetVotes (t : Table) (roomId : String) (ht : GoodTable t) :
    GoodTable (resetVotes t roomId) := by
  unfold resetVotes
  cases hroom : getKey t roomId with
  | none => exact ht
  | some room =>
    have hg := goodRoom_of_getKey ht hroom
    obtain ⟨hne, hhost, hfwd, hbwd⟩ := hg
    apply goodTable_setKey ht
    refine ⟨hne, hhost, ?_, ?_⟩
    · intro k hk
      rw [hasKey_mapVals]
      exact hfwd k hk
    · intro k hk
      rw [hasKey_mapVals] at hk
      exact hbwd k hk

theorem goodTable_removeParticipant (t : Table) (roomId participantId : String)
    (ht : GoodTable t) : GoodTable (removeParticipant t roomId participantId) :=
  goodTable_leaveRoom t roomId participantId ht

theorem goodTable_transferHost (t : Table) (roomId newHostId : String)
    (ht : GoodTable t) : GoodTable (transferHost t roomId newHostId) := by
  unfold transferHost
  cases hroom : getKey t roomId with
  | none => exact ht
  | some room =>
    by_cases hp : hasKey room.participants newHostId = true
    · simp only [hp, if_true]
      have hg := goodRoom_of_getKey ht hroom
      obtain ⟨hne, hhost, hfwd, hbwd⟩ := hg
      exact goodTable_setKey ht ⟨hne, hp, hfwd, hbwd⟩
    · simp only [Bool.not_eq_true] at hp
      simp only [hp, Bool.false_eq_true, if_false]
      exact ht

/-- Every table reachable by the Mutation API satisfies the strong
per-room invariant. -/
theorem reachable_goodTable {t : Table} (h : Reachable t) : GoodTable t := by
  induction h with
  | empty => intro e he; simp at he
  | create id now options _ ih => exact goodTable_createRoom _ id now options ih
  | join roomId profile _ ih => exact goodTable_joinRoom _ roomId profile ih
  | leave roomId participantId _ ih => exact goodTable_leaveRoom _ roomId participantId ih
  | update roomId participantId updates _ ih =>
    exact goodTable_updateParticipantProfile _ roomId participantId updates ih
  | vote roomId participantId value _ ih =>
    exact goodTable_submitVote _ roomId participantId value ih
  | reveal roomId _ ih => exact goodTable_revealVotes _ roomId ih
  | reset roomId _ ih => exact goodTable_resetVotes _ roomId ih
  | remove roomId participantId _ ih =>
    exact goodTable_removeParticipant _ roomId participantId ih
  | transfer roomId newHostId _ ih => exact goodTable_transferHost _ roomId newHostId ih

/-! ## Concrete sample data used by the witnesses -/

def hostP : ParticipantProfile :=
  { id := "H", name := "Ana", avatarColor := "#3498db", joinedAt := 1 }

def memberA : ParticipantProfile :=
  { id := "A", name := "Bob", avatarColor := "#1abc9c", joinedAt := 2 }

def memberA2 : ParticipantProfile :=
  { id := "A", name := "Bobby", avatarColor := "#9b59b6", joinedAt := 99 }

def optsFib : CreateRoomOptions :=
  { name := "Planning", deckType := .fibonacci, customDeck := none, host := hostP }

def T1 : Table := createRoom "AAAA-0001" 5 optsFib []

def T2 : Table := (joinRoom T1 "AAAA-0001" memberA).2

theorem reachable_T1 : Reachable T1 :=
  Reachable.create "AAAA-0001" 5 optsFib Reachable.empty

theorem reachable_T2 : Reachable T2 :=
  Reachable.join "AAAA-0001" memberA reachable_T1

/-- The room held by `T2`, written out. -/
def roomT2 : RoomState :=
  { id := "AAAA-0001", name := "Planning", deckType := .fibonacci,
    deckValues := PRESET_FIBONACCI, hostId := "H",
    participants := [("H", hostP), ("A", memberA)],
    votes := [("H", none), ("A", none)], revealed := false, createdAt := 5 }

/-- A revealed two-participant room with votes cast, used to exercise
the vote-clearing and host-reassignment behaviour. -/
def sampleRoom : RoomState :=
  { id := "AAAA-0001", name := "Sala", deckType := .fibonacci,
    deckValues := PRESET_FIBONACCI, hostId := "H",
    participants := [("H", hostP), ("A", memberA)],
    votes := [("H", some "8"), ("A", some "5")], revealed := true, createdAt := 0 }

def sampleTable : Table := [("AAAA-0001", sampleRoom)]

/-! ## Claims -/

/-- C1: every table reachable from the empty table by any sequence of
Mutation API operations satisfies, for every room it holds: every key
of the participants map has a corresponding key in the votes map, and
if the participants map is non-empty then hostId is a key of the
participants map. -/
theorem mutationApi_participants_votes_host_invariant (t : Table) (h : Reachable t) :
    ∀ e ∈ t, (∀ k ∈ keys e.2.participants, hasKey e.2.votes k = true) ∧
      (e.2.participants ≠ [] → hasKey e.2.participants e.2.hostId = true) := by
  intro e he
  obtain ⟨hne, hhost, hfwd, _⟩ := reachable_goodTable h e he
  exact ⟨fun k hk => hfwd k ((mem_keys_iff_hasKey _ _).mp hk), fun _ => hhost⟩

theorem mutationApi_participants_votes_host_invariant_witness :
    hasKey (buildRoom "AAAA-0001" 5 optsFib).votes "H" = true :=
  ((mutationApi_participants_votes_host_invariant T1 reachable_T1)
      ("AAAA-0001", buildRoom "AAAA-0001" 5 optsFib) (by decide)).1 "H" (by decide)

/-- C2: no reachable table contains a room with an empty participants
map; and when leaveRoom removes the last remaining participant of a
room, the room itself is deleted from the table. -/
theorem no_empty_room_reachable :
    (∀ t, Reachable t → ∀ e ∈ t, e.2.participants ≠ []) ∧
    (∀ t roomId participantId room, getKey t roomId = some room →
      keys (delKey room.participants participantId) = [] →
      hasKey (leaveRoom t roomId participantId) roomId = false) := by
  constructor
  · intro t h e he
    exact (reachable_goodTable h e he).1
  · intro t roomId participantId room hroom hdel
    unfold leaveRoom
    rw [hroom]
    simp only [hdel]
    rw [Bool.eq_false_iff]
    intro hcon
    exact ((hasKey_delKey _ _ _).mp hcon).1 rfl

theorem no_empty_room_reachable_witness :
    (buildRoom "AAAA-0001" 5 optsFib).participants ≠ [] ∧
    hasKey (leaveRoom T1 "AAAA-0001" "H") "AAAA-0001" = false :=
  ⟨no_empty_room_reachable.1 T1 reachable_T1
      ("AAAA-0001", buildRoom "AAAA-0001" 5 optsFib) (by decide),
   no_empty_room_reachable.2 T1 "AAAA-0001" "H" (buildRoom "AAAA-0001" 5 optsFib)
      (by decide) (by decide)⟩

/-- C3: submitVote is a no-op when the room is absent or the
participant is not in the room's participants map; otherwise it stores
the given value in that participant's vote slot and the revealed flag
becomes false exactly when the value is null (so a revealed room is
un-revealed by a null vote). -/
theorem submitVote_spec (t : Table) (roomId participantId : String) (value : Option String) :
    (getKey t roomId = none → submitVote t roomId participantId value = t) ∧
    (∀ room, getKey t roomId = some room →
      hasKey room.participants participantId = false →
      submitVote t roomId participantId value = t) ∧
    (∀ room, getKey t roomId = some room →
      hasKey room.participants participantId = true →
      ∃ room', getKey (submitVote t roomId participantId value) roomId = some room' ∧
        getKey room'.votes participantId = some value ∧
        room'.revealed = (if value = none then false else room.revealed)) := by
  refine ⟨?_, ?_, ?_⟩
  · intro h
    unfold submitVote
    rw [h]
  · intro room hroom hp
    unfold submitVote
    rw [hroom]
    simp only [hp, Bool.false_eq_true, if_false]
  · intro room hroom hp
    unfold submitVote
    rw [hroom]
    simp only [hp, if_true]
    exact ⟨_, getKey_setKey_self _ _ _, getKey_setKey_self _ _ _, rfl⟩

theorem submitVote_spec_witness :
    (getKey (submitVote sampleTable "AAAA-0001" "A" none) "AAAA-0001").map
      RoomState.revealed = some false := by
  obtain ⟨room', h1, _h2, h3⟩ :=
    (submitVote_spec sampleTable "AAAA-0001" "A" none).2.2 sampleRoom (by decide) (by decide)
  rw [h1]
  simp only [if_pos rfl] at h3
  simp [h3]

/-- C4: on a reachable table (the only tables the store ever holds),
joinRoom with a missing room id returns a structured failure result and
leaves the table unchanged, and every other operation referencing a
missing room or a missing participant leaves the table unchanged. -/
theorem missing_target_noop (t : Table) (h : Reachable t) :
    (∀ roomId profile, hasKey t roomId = false →
      (joinRoom t roomId profile).1.success = false ∧
      (joinRoom t roomId profile).1.reason = some "Sala não encontrada." ∧
      (joinRoom t roomId profile).2 = t) ∧
    (∀ roomId participantId updates value, hasKey t roomId = false →
      leaveRoom t roomId participantId = t ∧
      updateParticipantProfile t roomId participantId updates = t ∧
      submitVote t roomId participantId value = t ∧
      revealVotes t roomId = t ∧
      resetVotes t roomId = t ∧
      removeParticipant t roomId participantId = t ∧
      transferHost t roomId participantId = t) ∧
    (∀ roomId room participantId updates value, getKey t roomId = some room →
      hasKey room.participants participantId = false →
      leaveRoom t roomId participantId = t ∧
      updateParticipantProfile t roomId participantId updates = t ∧
      submitVote t roomId participantId value = t ∧
      removeParticipant t roomId participantId = t ∧
      transferHost t roomId participantId = t) := by
  refine ⟨?_, ?_, ?_⟩
  · intro roomId profile hmiss
    have hn := getKey_eq_none_of_not_hasKey hmiss
    unfold joinRoom
    rw [hn]
    exact ⟨rfl, rfl, rfl⟩
  · intro roomId participantId updates value hmiss
    have hn := getKey_eq_none_of_not_hasKey hmiss
    refine ⟨?_, ?_, ?_, ?_, ?_, ?_, ?_⟩
    · unfold leaveRoom
      rw [hn]
    · unfold updateParticipantProfile
      rw [hn]
    · unfold submitVote
      rw [hn]
    · unfold revealVotes
      rw [hn]
    · unfold resetVotes
      rw [hn]
    · unfold removeParticipant leaveRoom
      rw [hn]
    · unfold transferHost
      rw [hn]
  · intro roomId room participantId updates value hroom hp
    have hg := goodRoom_of_getKey (reachable_goodTable h) hroom
    obtain ⟨hne, hhost, hfwd, hbwd⟩ := hg
    have hpv : hasKey room.votes participantId = false := by
      rw [Bool.eq_false_iff]
      intro hcon
      rw [hbwd participantId hcon] at hp
      cases hp
    have hhostne : room.hostId ≠ participantId := by
      intro heq
      rw [heq] at hhost
      rw [hhost] at hp
      cases hp
    have hleave : leaveRoom t roomId participantId = t := by
      unfold leaveRoom
      rw [hroom]
      have e1 : delKey room.participants participantId = room.participants :=
        delKey_eq_self_of_not_hasKey hp
      have e2 : delKey room.votes participantId = room.votes :=
        delKey_eq_self_of_not_hasKey hpv
      cases hkeys : keys room.participants with
      | nil => exact absurd ((keys_eq_nil_iff _).mp hkeys) hne
      | cons first rest =>
        simp only [e1, e2, hkeys]
        have hb : (room.hostId == participantId) = false := by
          simp [hhostne]
        simp only [hb, Bool.false_eq_true, if_false, List.isEmpty_cons, Bool.and_false]
        exact setKey_eq_self_of_getKey hroom
    refine ⟨hleave, ?_, ?_, hleave, ?_⟩
    · unfold updateParticipantProfile
      rw [hroom]
      simp only [getKey_eq_none_of_not_hasKey hp]
    · unfold submitVote
      rw [hroom]
      simp only [hp, Bool.false_eq_true, if_false]
    · unfold transferHost
      rw [hroom]
      simp only [hp, Bool.false_eq_true, if_false]

theorem missing_target_noop_witness :
    (joinRoom T2 "ZZZZ-9999" memberA2).1.success = false ∧
    leaveRoom T2 "AAAA-0001" "X" = T2 :=
  ⟨((missing_target_noop T2 reachable_T2).1 "ZZZZ-9999" memberA2 (by decide)).1,
   ((missing_target_noop T2 reachable_T2).2.2 "AAAA-0001" roomT2 "X"
      { name := none, avatarColor := none } none (by decide) (by decide)).1⟩

/-- C5: when the host leaves a room that still contains at least one
other participant, the room survives with the host removed and the new
hostId is the first remaining participant key: a member of the room,
never the departed host, and a deterministic function of the
participants map. -/
theorem leaveRoom_host_reassignment (t : Table) (roomId : String) (room : RoomState)
    (participantId : String) (hroom : getKey t roomId = some room)
    (hhost : room.hostId = participantId)
    (_hmem : hasKey room.participants participantId = true)
    (hrem : keys (delKey room.participants participantId) ≠ []) :
    ∃ room', getKey (leaveRoom t roomId participantId) roomId = some room' ∧
      hasKey room'.participants participantId = false ∧
      hasKey room'.participants room'.hostId = true ∧
      room'.hostId ≠ participantId ∧
      room'.hostId = (keys (delKey room.participants participantId)).headD participantId := by
  cases hk : keys (delKey room.participants participantId) with
  | nil => exact absurd hk hrem
  | cons first rest =>
    unfold leaveRoom
    rw [hroom]
    simp only [hk]
    have hfirst : hasKey (delKey room.participants participantId) first = true := by
      rw [← mem_keys_iff_hasKey, hk]
      exact List.mem_cons_self _ _
    have hfirstne : first ≠ participantId := ((hasKey_delKey _ _ _).mp hfirst).1
    have hb : (room.hostId == participantId) = true := by
      simp [hhost]
    refine ⟨_, getKey_setKey_self _ _ _, ?_, ?_, ?_, ?_⟩
    · show hasKey (delKey room.participants participantId) participantId = false
      rw [Bool.eq_false_iff]
      intro hcon
      exact ((hasKey_delKey _ _ _).mp hcon).1 rfl
    · show hasKey (delKey room.participants participantId)
        (if room.hostId == participantId then first else room.hostId) = true
      simp only [hb, if_true]
      exact hfirst
    · show (if room.hostId == participantId then first else room.hostId) ≠ participantId
      simp only [hb, if_true]
      exact hfirstne
    · show (if room.hostId == participantId then first else room.hostId) =
        (first :: rest).headD participantId
      simp only [hb, if_true, List.headD_cons]

theorem leaveRoom_host_reassignment_witness :
    (getKey (leaveRoom sampleTable "AAAA-0001" "H") "AAAA-0001").map
      RoomState.hostId = some "A" := by
  obtain ⟨room', h1, _, _, _, h5⟩ :=
    leaveRoom_host_reassignment sampleTable "AAAA-0001" sampleRoom "H"
      (by decide) (by decide) (by decide) (by decide)
  rw [h1]
  have hcalc : (keys (delKey sampleRoom.participants "H")).headD "H" = "A" := by decide
  rw [hcalc] at h5
  simp [h5]

/-- C6: joinRoom is idempotent for a participant already in the room:
the stored joinedAt stays the original one, only the display fields are
replaced, an existing vote entry is untouched, and a null vote slot is
created only when no entry existed. -/
theorem joinRoom_rejoin_idempotent (t : Table) (roomId : String) (room : RoomState)
    (profile existing : ParticipantProfile) (hroom : getKey t roomId = some room)
    (hpart : getKey room.participants profile.id = some existing) :
    (joinRoom t roomId profile).1.success = true ∧
    (∃ room', getKey (joinRoom t roomId profile).2 roomId = some room' ∧
      getKey room'.participants profile.id = some
        { id := profile.id, name := profile.name, avatarColor := profile.avatarColor,
          joinedAt := existing.joinedAt } ∧
      (hasKey room.votes profile.id = true → room'.votes = room.votes) ∧
      (hasKey room.votes profile.id = false →
        getKey room'.votes profile.id = some none)) := by
  unfold joinRoom
  rw [hroom]
  simp only [hpart]
  constructor
  · trivial
  · by_cases hv : hasKey room.votes profile.id = true
    · simp only [hv, if_true]
      refine ⟨_, getKey_setKey_self _ _ _, getKey_setKey_self _ _ _, fun _ => rfl, ?_⟩
      intro hfalse
      simp at hfalse
    · simp only [Bool.not_eq_true] at hv
      simp only [hv, Bool.false_eq_true, if_false]
      refine ⟨_, getKey_setKey_self _ _ _, getKey_setKey_self _ _ _, ?_, ?_⟩
      · intro htrue
        exact htrue.elim
      · intro _
        exact getKey_setKey_self _ _ _

theorem joinRoom_rejoin_idempotent_witness :
    (getKey (joinRoom sampleTable "AAAA-0001" memberA2).2 "AAAA-0001").map
      RoomState.votes = some [("H", some "8"), ("A", some "5")] := by
  obtain ⟨_, room', h1, _h2, h3, _⟩ :=
    joinRoom_rejoin_idempotent sampleTable "AAAA-0001" sampleRoom memberA2 memberA
      (by decide) (by decide)
  rw [h1]
  simp only [Option.map_some']
  rw [h3 (by decide)]
  rfl

/-! ## Custom deck parsing (App.tsx) -/

/-- A character matched by the `[,\n]` class of the splitting regex. -/
def isDelim (c : Char) : Bool := c == ',' || c == '\n'

/-- Length of the leading whitespace run (what a greedy `\s*` first consumes). -/
def wsRun : List Char → Nat
  | [] => 0
  | c :: cs => if isJsWs c then wsRun cs + 1 else 0

def atDelim (cs : List Char) (m : Nat) : Bool :=
  match cs.get? m with
  | some c => isDelim c
  | none => false

/-- Greedy backtracking of the first `\s*`: the largest offset `m`
not exceeding the given bound at which a delimiter character sits.
A newline inside the whitespace run can itself serve as the delimiter,
exactly as the regex engine backtracks. -/
def findDelim (cs : List Char) : Nat → Option Nat
  | 0 => if atDelim cs 0 then some 0 else none
  | m + 1 => if atDelim cs (m + 1) then some (m + 1) else findDelim cs m

/-- Total length of the regex match `\s*[,\n]\s*` anchored at the head
of the list, if it matches here. -/
def matchLen (cs : List Char) : Option Nat :=
  (findDelim cs (wsRun cs)).map (fun m => m + 1 + wsRun (cs.drop (m + 1)))

/-- Scanner for `String.prototype.split(/\s*[,\n]\s*/)`: leftmost match
wins, each match consumes at least the one delimiter character.  Fuel
is bounded by the input length, which every step decreases. -/
def splitGo : Nat → List Char → List Char → List String
  | 0, _, acc => [String.mk acc.reverse]
  | _ + 1, [], acc => [String.mk acc.reverse]
  | fuel + 1, c :: cs, acc =>
    match matchLen (c :: cs) with
    | some len => String.mk acc.reverse :: splitGo fuel ((c :: cs).drop len) []
    | none => splitGo fuel cs (c :: acc)

/-- JS `input.split(/\s*[,\n]\s*/)`. -/
def splitDelims (s : String) : List String :=
  splitGo (s.toList.length + 1) s.toList []

/-- `parseCustomDeck` from App.tsx: split on the comma/newline regex,
trim every entry, drop falsy (empty) entries. -/
def parseCustomDeck (input : String) : List String :=
  ((splitDelims input).map trimStr).filter (fun v => !(v == ""))

theorem filter_map_trim_nil (l : List String) (h : ∀ e ∈ l, trimStr e = "") :
    (l.map trimStr).filter (fun v => !(v == "")) = [] := by
  induction l with
  | nil => rfl
  | cons a rest ih =>
    simp only [List.map_cons, List.filter_cons, h a (List.mem_cons_self _ _)]
    simp only [beq_self_eq_true, Bool.not_true, Bool.false_eq_true, if_false]
    exact ih (fun e he => h e (List.mem_cons_of_mem _ he))

/-- Options for creating a custom-deck room from a raw deck textarea
input, as App.tsx does: the raw string goes through parseCustomDeck
before reaching createRoom. -/
def optsCustom (rawDeckInput : String) : CreateRoomOptions :=
  { name := "Sala", deckType := .custom,
    customDeck := some (parseCustomDeck rawDeckInput), host := hostP }

/-- C7: creating a custom-deck room from the raw input
" 1, 2,,  3 \n5" yields the deck ["1","2","3","5"], and any custom
input whose split entries all trim to empty (the empty string included)
yields the single-card fallback deck. -/
theorem customDeck_parse_and_fallback :
    (buildRoom "AAAA-0001" 0 (optsCustom " 1, 2,,  3 \n5")).deckValues =
      ["1", "2", "3", "5"] ∧
    (∀ s : String, (∀ e ∈ splitDelims s, trimStr e = "") →
      (buildRoom "AAAA-0001" 0 (optsCustom s)).deckValues = ["?"]) := by
  constructor
  · decide
  · intro s h
    have hnil : parseCustomDeck s = [] := filter_map_trim_nil _ h
    show resolveDeck .custom (some (parseCustomDeck s)) = ["?"]
    rw [hnil]
    decide

theorem customDeck_parse_and_fallback_witness :
    (buildRoom "AAAA-0001" 0 (optsCustom "")).deckValues = ["?"] :=
  customDeck_parse_and_fallback.2 "" (by decide)

/-! ## Startup sanitization of stored rooms (loadRooms) -/

/-- The deck-values sanitization loadRooms applies to each stored room:
a stored value that is not an array becomes the empty array, and an
array has each entry coerced with String(value).  `none` models a
non-array stored value; array entries are modelled after coercion. -/
def sanitizeStoredDeckValues : Option (List String) → List String
  | none => []
  | some values => values

/-- C8 counterexample: a room created from the raw custom deck input
"1, 1" keeps the duplicate (its deckValues is not a sequence of
distinct strings), and the startup sanitization turns a non-array
stored deck into the empty list (a loaded room's deckValues can be
empty). -/
theorem deckValues_distinct_counterexample :
    ((buildRoom "AAAA-0001" 0 (optsCustom "1, 1")).deckValues = ["1", "1"] ∧
      ¬ (buildRoom "AAAA-0001" 0 (optsCustom "1, 1")).deckValues.Nodup) ∧
    sanitizeStoredDeckValues none = [] := by
  refine ⟨⟨by decide, by decide⟩, rfl⟩

/-- C8 amended: every room created by createRoom has non-empty
deckValues (a custom deck falls back to a one-card deck when nothing
usable is supplied), but the values need not be distinct; a room loaded
by the startup sanitization merely has its deckValues coerced to a list
of strings, which is empty when the stored value was not an array. -/
theorem created_deckValues_nonempty (id : String) (now : Nat)
    (options : CreateRoomOptions) : (buildRoom id now options).deckValues ≠ [] := by
  show resolveDeck options.deckType options.customDeck ≠ []
  unfold resolveDeck
  cases options.deckType with
  | fibonacci => simp [PRESET_FIBONACCI]
  | numeric => simp [PRESET_NUMERIC]
  | custom =>
    by_cases h :
        (((options.customDeck.getD []).map trimStr).filter (fun v => v.length != 0)).length > 0
    · simp only [h, if_true]
      intro hnil
      rw [hnil] at h
      simp at h
    · simp only [h, if_false]
      simp

theorem created_deckValues_nonempty_witness :
    (buildRoom "AAAA-0001" 0 (optsCustom "")).deckValues ≠ [] :=
  created_deckValues_nonempty "AAAA-0001" 0 (optsCustom "")

/-! ## Room name (createRoom) -/

theorem mk_eq_empty_iff (l : List Char) : String.mk l = "" ↔ l = [] := by
  constructor
  · intro h
    have hd : (String.mk l).data = ("" : String).data := by rw [h]
    simpa using hd
  · intro h
    rw [h]

theorem trimStr_eq_empty_iff (s : String) :
    trimStr s = "" ↔ ∀ c ∈ s.toList, isJsWs c = true := by
  unfold trimStr
  rw [mk_eq_empty_iff]
  simp only [List.reverse_eq_nil_iff, List.dropWhile_eq_nil_iff, List.mem_reverse]
  constructor
  · intro h c hc
    have hsplit := List.takeWhile_append_dropWhile isJsWs s.toList
    rw [← hsplit] at hc
    rcases List.mem_append.mp hc with hc' | hc'
    · exact List.mem_takeWhile_imp hc'
    · exact h c hc'
  · intro h c hc
    exact h c (List.dropWhile_subset _ hc)

/-- C10: createRoom names the room "Sala sem nome" exactly when the
supplied name is empty or consists only of whitespace; any other name
is stored with surrounding whitespace trimmed. -/
theorem createRoom_name_trim (id : String) (now : Nat) (options : CreateRoomOptions) :
    ((∀ c ∈ options.name.toList, isJsWs c = true) →
      (buildRoom id now options).name = "Sala sem nome") ∧
    ((¬ ∀ c ∈ options.name.toList, isJsWs c = true) →
      (buildRoom id now options).name = trimStr options.name) := by
  constructor
  · intro h
    have he : trimStr options.name = "" := (trimStr_eq_empty_iff _).mpr h
    show (if trimStr options.name == "" then "Sala sem nome" else trimStr options.name) =
      "Sala sem nome"
    simp [he]
  · intro h
    have he : trimStr options.name ≠ "" := fun hc => h ((trimStr_eq_empty_iff _).mp hc)
    show (if trimStr options.name == "" then "Sala sem nome" else trimStr options.name) =
      trimStr options.name
    simp [he]

def optsBlankName : CreateRoomOptions :=
  { name := "  \n ", deckType := .fibonacci, customDeck := none, host := hostP }

theorem createRoom_name_trim_witness :
    (buildRoom "AAAA-0001" 0 optsBlankName).name = "Sala sem nome" :=
  (createRoom_name_trim "AAAA-0001" 0 optsBlankName).1 (by decide)

/-! ## Room id generation

`generateRoomId` is
`Math.random().toString(36).slice(2, 6).toUpperCase() + '-' +
 Date.now().toString(36).slice(-4).toUpperCase()`.
`Math.random()` returns a float in [0, 1); its base-36 rendering is "0"
for zero and otherwise "0." followed by the fractional base-36 digits
with no trailing zero digit.  The random source is therefore modelled
by that digit list, and the clock by a natural number. -/

/-- The base-36 digit alphabet of `Number.prototype.toString(36)`:
the ten decimal digits followed by the twenty-six lowercase letters
(48 is the code of the zero digit, 97 that of the letter a). -/
def base36Chars : List Char :=
  (List.range 36).map (fun n => if n < 10 then Char.ofNat (48 + n) else Char.ofNat (87 + n))

def digitChar (n : Nat) : Char := base36Chars.getD n '0'

/-- Base-36 digits of a natural number, most significant first; the
fuel argument only needs to exceed the number itself. -/
def toB36Go : Nat → Nat → List Char
  | 0, _ => []
  | fuel + 1, n =>
    if n < 36 then [digitChar n] else toB36Go fuel (n / 36) ++ [digitChar (n % 36)]

/-- JS `n.toString(36)` for a non-negative integer, as a char list. -/
def natToBase36 (n : Nat) : List Char := toB36Go (n + 1) n

def generateRoomId (randFrac : List Char) (now : Nat) : String :=
  let randChars : List Char := if randFrac.isEmpty then ['0'] else '0' :: '.' :: randFrac
  let firstPart := ((randChars.drop 2).take 4).map Char.toUpper
  let timeChars := natToBase36 now
  let secondPart := (timeChars.drop (timeChars.length - 4)).map Char.toUpper
  String.mk (firstPart ++ '-' :: secondPart)

def isUpperAlnum (c : Char) : Bool := c.isDigit || c.isUpper

/-- The XXXX-YYYY shape: exactly four uppercase alphanumeric
characters, a dash, four more uppercase alphanumeric characters. -/
def roomIdFormatB (s : String) : Bool :=
  (s.toList.length == 9) && (s.toList.take 4).all isUpperAlnum &&
    (s.toList.get? 4 == some '-') && (s.toList.drop 5).all isUpperAlnum

/-- C9 counterexample: for the random value 0.5, whose base-36
rendering is "0.i", and the ordinary clock value 1700000000000
(base-36 "loyw3v28"), the generated id is "I-3V28": the first group
has one character, not four. -/
theorem roomId_format_counterexample :
    generateRoomId ['i'] 1700000000000 = "I-3V28" ∧
      roomIdFormatB (generateRoomId ['i'] 1700000000000) = false := by
  constructor
  · decide
  · decide

theorem upper_base36 : ∀ c ∈ base36Chars, isUpperAlnum (Char.toUpper c) = true := by
  decide

theorem digitChar_mem (n : Nat) : digitChar n ∈ base36Chars := by
  unfold digitChar
  by_cases h : n < base36Chars.length
  · rw [List.getD_eq_getElem _ _ h]
    exact List.getElem_mem h
  · rw [List.getD_eq_default _ _ (Nat.le_of_not_lt h)]
    decide

theorem toB36Go_mem (fuel : Nat) : ∀ n, ∀ c ∈ toB36Go fuel n, c ∈ base36Chars := by
  induction fuel with
  | zero =>
    intro n c hc
    simp [toB36Go] at hc
  | succ fuel ih =>
    intro n c hc
    by_cases h : n < 36
    · simp only [toB36Go, h, if_true, List.mem_singleton] at hc
      rw [hc]
      exact digitChar_mem n
    · simp only [toB36Go, h, if_false, List.mem_append, List.mem_singleton] at hc
      rcases hc with hc | hc
      · exact ih (n / 36) c hc
      · rw [hc]
        exact digitChar_mem (n % 36)

theorem toB36Go_length (fuel : Nat) :
    ∀ n k, n < fuel → 36 ^ k ≤ n → k + 1 ≤ (toB36Go fuel n).length := by
  induction fuel with
  | zero =>
    intro n k hn
    omega
  | succ fuel ih =>
    intro n k hn hk
    by_cases h : n < 36
    · have hk0 : k = 0 := by
        by_contra hne
        have h1 : 1 ≤ k := Nat.one_le_iff_ne_zero.mpr hne
        have h36 : (36 : Nat) ≤ 36 ^ k := by
          calc (36 : Nat) = 36 ^ 1 := by norm_num
            _ ≤ 36 ^ k := Nat.pow_le_pow_right (by norm_num) h1
        omega
      subst hk0
      simp [toB36Go, h]
    · simp only [toB36Go, h, if_false, List.length_append, List.length_cons,
        List.length_nil]
      cases k with
      | zero => omega
      | succ k' =>
        have hdiv : 36 ^ k' ≤ n / 36 := by
          rw [Nat.le_div_iff_mul_le (by norm_num : (0 : Nat) < 36)]
          calc 36 ^ k' * 36 = 36 ^ (k' + 1) := by rw [pow_succ]
            _ ≤ n := hk
        have hlt : n / 36 < fuel := by
          have hself : n / 36 < n := Nat.div_lt_self (by omega) (by norm_num)
          omega
        have := ih (n / 36) k' hlt hdiv
        omega

/-- C9 amended: the two dash-separated groups are always uppercase
alphanumeric, but they have exactly four characters each only when the
random value's base-36 fraction has at least four digits and the clock
value has at least four base-36 digits; degenerate values (such as the
random value 0.5 or clock value 0) give shorter groups. -/
theorem generateRoomId_format (randFrac : List Char) (now : Nat)
    (hlen : 4 ≤ randFrac.length) (hdig : ∀ c ∈ randFrac, c ∈ base36Chars)
    (hnow : 36 ^ 3 ≤ now) :
    roomIdFormatB (generateRoomId randFrac now) = true := by
  have hne : randFrac.isEmpty = false := by
    cases randFrac with
    | nil => simp at hlen
    | cons a l => rfl
  unfold generateRoomId
  simp only [hne, Bool.false_eq_true, if_false, List.drop_succ_cons, List.drop_zero]
  have hfl : ((randFrac.take 4).map Char.toUpper).length = 4 := by
    simp only [List.length_map, List.length_take]
    omega
  have htl : 4 ≤ (natToBase36 now).length :=
    toB36Go_length (now + 1) now 3 (Nat.lt_succ_self now) hnow
  have hsl : (((natToBase36 now).drop ((natToBase36 now).length - 4)).map
      Char.toUpper).length = 4 := by
    simp only [List.length_map, List.length_drop]
    omega
  have hfall : ∀ c ∈ (randFrac.take 4).map Char.toUpper, isUpperAlnum c = true := by
    intro c hc
    obtain ⟨d, hd, rfl⟩ := List.mem_map.mp hc
    exact upper_base36 d (hdig d (List.take_subset _ _ hd))
  have hsall : ∀ c ∈ ((natToBase36 now).drop ((natToBase36 now).length - 4)).map
      Char.toUpper, isUpperAlnum c = true := by
    intro c hc
    obtain ⟨d, hd, rfl⟩ := List.mem_map.mp hc
    exact upper_base36 d (toB36Go_mem (now + 1) now d (List.drop_subset _ _ hd))
  unfold roomIdFormatB
  have hlist : (String.mk ((randFrac.take 4).map Char.toUpper ++
      '-' :: ((natToBase36 now).drop ((natToBase36 now).length - 4)).map
        Char.toUpper)).toList =
      (randFrac.take 4).map Char.toUpper ++
        '-' :: ((natToBase36 now).drop ((natToBase36 now).length - 4)).map
          Char.toUpper := rfl
  rw [hlist]
  have h9 : ((randFrac.take 4).map Char.toUpper ++
      '-' :: ((natToBase36 now).drop ((natToBase36 now).length - 4)).map
        Char.toUpper).length = 9 := by
    simp only [List.length_append, List.length_cons, hfl, hsl]
  have htake : ((randFrac.take 4).map Char.toUpper ++
      '-' :: ((natToBase36 now).drop ((natToBase36 now).length - 4)).map
        Char.toUpper).take 4 = (randFrac.take 4).map Char.toUpper := by
    exact List.take_left' hfl
  have hget : ((randFrac.take 4).map Char.toUpper ++
      '-' :: ((natToBase36 now).drop ((natToBase36 now).length - 4)).map
        Char.toUpper).get? 4 = some '-' := by
    rw [List.get?_append_right (by omega)]
    rw [hfl]
    rfl
  have hdrop : ((randFrac.take 4).map Char.toUpper ++
      '-' :: ((natToBase36 now).drop ((natToBase36 now).length - 4)).map
        Char.toUpper).drop 5 =
      ((natToBase36 now).drop ((natToBase36 now).length - 4)).map Char.toUpper := by
    rw [show (5 : Nat) = ((randFrac.take 4).map Char.toUpper).length + 1 by rw [hfl]]
    rw [List.drop_append]
    rfl
  rw [h9, htake, hget, hdrop]
  simp only [beq_self_eq_true, Bool.true_and, Bool.and_true]
  rw [Bool.and_eq_true]
  constructor
  · exact List.all_eq_true.mpr hfall
  · exact List.all_eq_true.mpr hsall

theorem generateRoomId_format_witness :
    roomIdFormatB (generateRoomId ['a', 'b', 'c', 'd'] 46656) = true :=
  generateRoomId_format ['a', 'b', 'c', 'd'] 46656 (by decide) (by decide) (by norm_num)

end PlanningPoker
